import Mathlib

/-!
# Verification of the PDS4 XML template engine (`src/pds4/template.py`)
and the TRK-2-34 label filler (`scripts/pds4.trk234.py`)

A line of the template document is modelled as a `List Char`; the document
held in `XML_Template.data` (a Python list of strings) is a `List Line`.
Python's `find`/`rfind` return `-1` when the character is absent, and
slicing treats negative bounds relative to the end of the string; both are
modelled exactly.
-/

/-- A single line of the XML template document. -/
abbrev Line := List Char

/-- The document: `self.data`, the list of lines of the template. -/
abbrev Doc := List Line

/-- Index of the first occurrence of `c`, or `none` — the search behind
Python's `str.find`. -/
def firstIdx (c : Char) : List Char → Option Nat
  | [] => none
  | a :: l => if a = c then some 0 else (firstIdx c l).map (· + 1)

/-- Index of the last occurrence of `c`, or `none` — the search behind
Python's `str.rfind`. -/
def lastIdx (c : Char) : List Char → Option Nat
  | [] => none
  | a :: l =>
    match lastIdx c l with
    | some i => some (i + 1)
    | none => if a = c then some 0 else none

/-- Python `line.find(c)`: first index of `c`, or `-1` if absent. -/
def pyFind (l : List Char) (c : Char) : Int :=
  match firstIdx c l with
  | some i => (i : Int)
  | none => -1

/-- Python `line.rfind(c)`: last index of `c`, or `-1` if absent. -/
def pyRFind (l : List Char) (c : Char) : Int :=
  match lastIdx c l with
  | some i => (i : Int)
  | none => -1

/-- Normalise a Python slice bound: a negative bound counts from the end
(clamped at 0), a non-negative bound is clamped at the length. -/
def pyBound (len : Nat) (i : Int) : Nat :=
  if 0 ≤ i then min i.toNat len else len - (-i).toNat

/-- Python `l[i:]` (step 1). -/
def pySliceFrom (l : List Char) (i : Int) : List Char :=
  l.drop (pyBound l.length i)

/-- Python `l[a:b]` (step 1). -/
def pySlice (l : List Char) (a b : Int) : List Char :=
  (l.take (pyBound l.length b)).drop (pyBound l.length a)

/-- `line[:start+1]` with `start = line.find('>')`: the part of the line
kept to the left of the replaced value. -/
def linePrefix (l : Line) : Line :=
  l.take (pyFind l '>' + 1).toNat

/-- `line[stop:]` with `stop = line.rfind('<')`: the part of the line kept
to the right of the replaced value. -/
def lineSuffix (l : Line) : Line :=
  pySliceFrom l (pyRFind l '<')

/-- One line of `XML_Template.replace`: with `start = line.find('>')` and
`stop = line.rfind('<')`, the new line is `line[:start+1] + v + line[stop:]`. -/
def replaceLine (l v : Line) : Line :=
  l.take (pyFind l '>' + 1).toNat ++ v ++ pySliceFrom l (pyRFind l '<')

/-- `XML_Template.replace(xml_string = m, replace_string = v, replace_one = one)`:
rewrite each line containing `m` via `replaceLine`; when `one` is true, stop
after the first rewritten line (the `break`). -/
def replace (m v : Line) (one : Bool) : Doc → Doc
  | [] => []
  | l :: ls =>
    if m <:+: l then
      if one then replaceLine l v :: ls
      else replaceLine l v :: replace m v one ls
    else l :: replace m v one ls

/-- The `location` argument of `XML_Template.insert` (the invalid-string
branch of the source builds a `SyntaxError` without raising it and then
crashes on the list-typed index; only these two values are reachable). -/
inductive Loc
  | first
  | last
deriving DecidableEq

/-- The index list `ind` built by `XML_Template.insert`: indices (from `i0`)
of the lines containing `m`. -/
def matchIdxsFrom (m : Line) (i0 : Nat) : Doc → List Nat
  | [] => []
  | l :: ls =>
    if m <:+: l then i0 :: matchIdxsFrom m (i0 + 1) ls
    else matchIdxsFrom m (i0 + 1) ls

/-- Indices of the lines containing `m`, in document order. -/
def matchIdxs (m : Line) (data : Doc) : List Nat :=
  matchIdxsFrom m 0 data

/-- `XML_Template.insert(xml_after = m, insert_string = content, location = loc)`:
find the indices of lines containing `m`; if none, return unchanged; else
splice `content` at `ind+1` (`self.data[ind+1:ind+1] = content`), `ind`
being the first or last matching index as `loc` selects. -/
def insert (data : Doc) (m : Line) (content : List Line) (loc : Loc) : Doc :=
  let ind := matchIdxs m data
  if h : ind = [] then data
  else
    let i := match loc with
      | Loc.first => ind.head h
      | Loc.last => ind.getLast h
    data.take (i + 1) ++ content ++ data.drop (i + 1)

/-- One line of `XML_Template.read`: `line[start+1:stop]` with
`start = line.find('>')`, `stop = line.rfind('<')`. -/
def readLine (l : Line) : Line :=
  pySlice l (pyFind l '>' + 1) (pyRFind l '<')

/-- `XML_Template.read(m, searchtype='first')`: return the value of the
first line containing `m`; when no line matches, the source falls through
its final `else` (which builds an `IOError` without raising it) and
returns Python `None`, modelled as `none`. -/
def read_first (m : Line) : Doc → Option Line
  | [] => none
  | l :: ls => if m <:+: l then some (readLine l) else read_first m ls

/-- The accumulator `val` of `XML_Template.read` after the loop: the values
of all lines containing `m`, in document order. -/
def readLoop (m : Line) : Doc → List Line
  | [] => []
  | l :: ls => if m <:+: l then readLine l :: readLoop m ls else readLoop m ls

/-- `XML_Template.read(m, searchtype='all')`: the collected list `val`. -/
def read_all (m : Line) (data : Doc) : List Line :=
  readLoop m data

/-- `XML_Template.read(m, searchtype='last')`: `val[-1]`; indexing the empty
collection raises `IndexError`, modelled as `none`. -/
def read_last (m : Line) (data : Doc) : Option Line :=
  (readLoop m data).getLast?

/-- The offset loop of `Label.fill` in `pds4.trk234.py`: starting from
`byte_location`, for each processed segment kind with record length
`len` and record count `cnt`, record the current `byte_location` (the value
written into that kind's sub-template) and advance it by `len * cnt`. -/
def fillOffsets (byteLocation : Nat) : List (Nat × Nat) → List Nat
  | [] => []
  | (len, cnt) :: rest => byteLocation :: fillOffsets (byteLocation + len * cnt) rest

/-! ## Spec-side characterisations (used to state the claims) -/

/-- `p` is the position of the first `'>'` of `l`. -/
def firstGtAt (l : Line) (p : Nat) : Prop :=
  l[p]? = some '>' ∧ ∀ j < p, l[j]? ≠ some '>'

/-- `q` is the position of the last `'<'` of `l`. -/
def lastLtAt (l : Line) (q : Nat) : Prop :=
  l[q]? = some '<' ∧ ∀ j, q < j → l[j]? ≠ some '<'

/-- `i` is the index of the first line of `data` containing `m`. -/
def isFirstMatch (m : Line) (data : Doc) (i : Nat) : Prop :=
  (∃ l, data[i]? = some l ∧ m <:+: l) ∧
    ∀ j < i, ∀ l, data[j]? = some l → ¬ m <:+: l

/-- `i` is the index of the last line of `data` containing `m`. -/
def isLastMatch (m : Line) (data : Doc) (i : Nat) : Prop :=
  (∃ l, data[i]? = some l ∧ m <:+: l) ∧
    ∀ j, i < j → ∀ l, data[j]? = some l → ¬ m <:+: l

/-! ## Helper lemmas: the index searches -/

theorem firstIdx_eq_none_iff {c : Char} {l : List Char} :
    firstIdx c l = none ↔ c ∉ l := by
  induction l with
  | nil => simp [firstIdx]
  | cons a l ih =>
    by_cases h : a = c
    · subst h; simp [firstIdx]
    · simp [firstIdx, h, ih, Ne.symm h]

theorem firstIdx_eq_some_iff {c : Char} {l : List Char} {p : Nat} :
    firstIdx c l = some p ↔ (l[p]? = some c ∧ ∀ j < p, l[j]? ≠ some c) := by
  induction l generalizing p with
  | nil => simp [firstIdx]
  | cons a l ih =>
    by_cases h : a = c
    · subst h
      cases p with
      | zero => simp [firstIdx]
      | succ k =>
        simp only [firstIdx, if_pos rfl]
        constructor
        · intro hc
          exact absurd (Option.some.inj hc) (by omega)
        · rintro ⟨-, hall⟩
          have h0 : (a :: l)[0]? = some a := by simp
          exact absurd h0 (hall 0 (Nat.succ_pos k))
    · cases p with
      | zero =>
        simp only [firstIdx, if_neg h]
        constructor
        · intro hc
          rcases Option.map_eq_some'.mp hc with ⟨k, -, hk⟩
          exact absurd hk (by omega)
        · rintro ⟨hc, -⟩
          simp only [List.getElem?_cons_zero] at hc
          exact absurd (Option.some.inj hc) h
      | succ k =>
        simp only [firstIdx, if_neg h]
        constructor
        · intro hc
          rcases Option.map_eq_some'.mp hc with ⟨k', hk', hkk⟩
          obtain rfl : k' = k := by omega
          rcases ih.mp hk' with ⟨hget, hall⟩
          refine ⟨by simpa using hget, ?_⟩
          intro j hj
          cases j with
          | zero => simpa using fun hc => h hc
          | succ j => simpa using hall j (by omega)
        · rintro ⟨hget, hall⟩
          have : firstIdx c l = some k := by
            refine ih.mpr ⟨by simpa using hget, ?_⟩
            intro j hj
            simpa using hall (j + 1) (by omega)
          simp [this]

theorem lastIdx_eq_none_iff {c : Char} {l : List Char} :
    lastIdx c l = none ↔ c ∉ l := by
  induction l with
  | nil => simp [lastIdx]
  | cons a l ih =>
    rw [lastIdx]
    cases hl : lastIdx c l with
    | some i =>
      simp only []
      constructor
      · intro hc; exact absurd hc (by simp)
      · intro hc
        exact absurd (ih.mpr (by simp at hc; exact hc.2)) (by simp [hl])
    | none =>
      by_cases h : a = c
      · subst h; simp
      · simp [h, Ne.symm h, ← ih, hl]

theorem lastIdx_eq_some_iff {c : Char} {l : List Char} {q : Nat} :
    lastIdx c l = some q ↔ (l[q]? = some c ∧ ∀ j, q < j → l[j]? ≠ some c) := by
  induction l generalizing q with
  | nil => simp [lastIdx]
  | cons a l ih =>
    rw [lastIdx]
    cases hl : lastIdx c l with
    | some i =>
      rcases ih.mp hl with ⟨hget, hall⟩
      simp only []
      constructor
      · intro hc
        obtain rfl : q = i + 1 := by
          have := Option.some.inj hc; omega
        refine ⟨by simpa using hget, ?_⟩
        intro j hj
        cases j with
        | zero => omega
        | succ j => simpa using hall j (by omega)
      · rintro ⟨hget', hall'⟩
        cases q with
        | zero =>
          exfalso
          exact hall' (i + 1) (Nat.succ_pos i) (by simpa using hget)
        | succ k =>
          have : lastIdx c l = some k := by
            refine ih.mpr ⟨by simpa using hget', ?_⟩
            intro j hj
            simpa using hall' (j + 1) (by omega)
          rw [hl] at this
          simp [Option.some.inj this]
    | none =>
      have hcl : c ∉ l := lastIdx_eq_none_iff.mp hl
      by_cases h : a = c
      · subst h
        simp only [if_pos rfl]
        constructor
        · intro hc
          obtain rfl : q = 0 := (Option.some.inj hc).symm
          refine ⟨by simp, ?_⟩
          intro j hj
          cases j with
          | zero => omega
          | succ j =>
            simp only [List.getElem?_cons_succ]
            intro hc'
            exact hcl (List.get?_mem (by simpa [List.get?_eq_getElem?] using hc'))
        · rintro ⟨hget, hall⟩
          cases q with
          | zero => rfl
          | succ k =>
            exfalso
            exact hcl (List.get?_mem (by simpa [List.get?_eq_getElem?] using hget))
      · simp only [if_neg h]
        constructor
        · intro hc; cases hc
        · rintro ⟨hget, -⟩
          exfalso
          cases q with
          | zero => exact h (by simpa using hget)
          | succ k =>
            exact hcl (List.get?_mem (by simpa [List.get?_eq_getElem?] using hget))

theorem firstIdx_lt_length {c : Char} {l : List Char} {p : Nat}
    (h : firstIdx c l = some p) : p < l.length := by
  rcases firstIdx_eq_some_iff.mp h with ⟨hget, -⟩
  rcases List.getElem?_eq_some.mp hget with ⟨h', -⟩
  exact h'

theorem lastIdx_lt_length {c : Char} {l : List Char} {q : Nat}
    (h : lastIdx c l = some q) : q < l.length := by
  rcases lastIdx_eq_some_iff.mp h with ⟨hget, -⟩
  rcases List.getElem?_eq_some.mp hget with ⟨h', -⟩
  exact h'

theorem firstIdx_append {c : Char} {a b : List Char} :
    firstIdx c (a ++ b) =
      match firstIdx c a with
      | some i => some i
      | none => (firstIdx c b).map (· + a.length) := by
  induction a with
  | nil => simp [firstIdx]
  | cons x a ih =>
    by_cases h : x = c
    · simp [firstIdx, h]
    · cases ha : firstIdx c a with
      | some i => simp [firstIdx, List.append_eq, if_neg h, ih, ha]
      | none =>
        cases hb : firstIdx c b with
        | some i =>
          simp only [List.cons_append, firstIdx, List.append_eq, if_neg h, ih, ha, hb,
            Option.map_some', Option.map_none', List.length_cons]
          congr 1
          try omega
        | none => simp [firstIdx, List.append_eq, if_neg h, ih, ha, hb]

theorem lastIdx_append {c : Char} {a b : List Char} :
    lastIdx c (a ++ b) =
      match lastIdx c b with
      | some i => some (a.length + i)
      | none => lastIdx c a := by
  induction a with
  | nil =>
    cases hb : lastIdx c b with
    | some i => simp [lastIdx, hb]
    | none => simp [lastIdx, hb]
  | cons x a ih =>
    rw [List.cons_append, lastIdx, ih, lastIdx]
    cases hb : lastIdx c b with
    | some i =>
      simp only []
      congr 1
      simp [List.length_cons]
      omega
    | none => rfl

/-- A character of a sublist-slice is a character of the list. -/
theorem not_mem_take {c : Char} {l : List Char} (h : c ∉ l) (n : Nat) :
    c ∉ l.take n :=
  fun hc => h (List.take_subset n l hc)

theorem not_mem_drop {c : Char} {l : List Char} (h : c ∉ l) (n : Nat) :
    c ∉ l.drop n :=
  fun hc => h (List.drop_subset n l hc)

/-! ## Helper lemmas: the pieces of a rewritten line -/

theorem pyFind_eq_coe {c : Char} {l : List Char} {i : Nat}
    (h : firstIdx c l = some i) : pyFind l c = (i : Int) := by
  simp [pyFind, h]

theorem pyFind_eq_neg_one {c : Char} {l : List Char}
    (h : firstIdx c l = none) : pyFind l c = -1 := by
  simp [pyFind, h]

theorem pyRFind_eq_coe {c : Char} {l : List Char} {i : Nat}
    (h : lastIdx c l = some i) : pyRFind l c = (i : Int) := by
  simp [pyRFind, h]

theorem pyRFind_eq_neg_one {c : Char} {l : List Char}
    (h : lastIdx c l = none) : pyRFind l c = -1 := by
  simp [pyRFind, h]

theorem replaceLine_eq (l v : Line) :
    replaceLine l v = linePrefix l ++ v ++ lineSuffix l := rfl

theorem linePrefix_subset (l : Line) : linePrefix l ⊆ l :=
  List.take_subset _ _

theorem lineSuffix_subset (l : Line) : lineSuffix l ⊆ l :=
  List.drop_subset _ _

theorem not_mem_take_of_lt {c : Char} {l : List Char} {p : Nat}
    (h : ∀ j < p, l[j]? ≠ some c) : c ∉ l.take p := by
  intro hmem
  rcases List.mem_iff_getElem?.mp hmem with ⟨j, hj⟩
  rw [List.getElem?_take] at hj
  by_cases hjp : j < p
  · rw [if_pos hjp] at hj
    exact h j hjp hj
  · rw [if_neg hjp] at hj
    cases hj

theorem linePrefix_of_some {l : Line} {p : Nat} (hf : firstIdx '>' l = some p) :
    linePrefix l = l.take p ++ ['>'] ∧ (linePrefix l).length = p + 1 := by
  have hp := firstIdx_lt_length hf
  rcases firstIdx_eq_some_iff.mp hf with ⟨hget, hall⟩
  have htn : ((p : Int) + 1).toNat = p + 1 := by omega
  have h1 : linePrefix l = l.take (p + 1) := by
    rw [linePrefix, pyFind_eq_coe hf, htn]
  constructor
  · rw [h1, List.take_succ, hget]
    rfl
  · rw [h1, List.length_take]
    omega

theorem linePrefix_of_none {l : Line} (hf : firstIdx '>' l = none) :
    linePrefix l = [] := by
  rw [linePrefix, pyFind_eq_neg_one hf]
  rfl

theorem firstIdx_linePrefix_append {l : Line} {p : Nat} (rest : List Char)
    (hf : firstIdx '>' l = some p) :
    firstIdx '>' (linePrefix l ++ rest) = some p := by
  rcases linePrefix_of_some hf with ⟨hpre, -⟩
  rcases firstIdx_eq_some_iff.mp hf with ⟨-, hall⟩
  have htk : firstIdx '>' (l.take p) = none :=
    firstIdx_eq_none_iff.mpr (not_mem_take_of_lt hall)
  have hlen : (l.take p).length = p := by
    have := firstIdx_lt_length hf
    rw [List.length_take]
    omega
  rw [hpre, List.append_assoc, firstIdx_append, htk]
  have hhd : firstIdx '>' ('>' :: rest) = some 0 := by
    simp [firstIdx]
  simp [hhd, hlen]

theorem firstIdx_replaceLine {l v : Line} (hgt : '>' ∉ v) :
    firstIdx '>' (replaceLine l v) = firstIdx '>' l := by
  cases hf : firstIdx '>' l with
  | some p =>
    rw [replaceLine_eq, List.append_assoc]
    exact firstIdx_linePrefix_append _ hf
  | none =>
    have hnl : '>' ∉ l := firstIdx_eq_none_iff.mp hf
    apply firstIdx_eq_none_iff.mpr
    rw [replaceLine_eq, linePrefix_of_none hf]
    intro hmem
    rcases List.mem_append.mp hmem with h | h
    · rcases List.mem_append.mp h with h' | h'
      · cases h'
      · exact hgt h'
    · exact hnl (lineSuffix_subset l h)

theorem lineSuffix_of_some {l : Line} {q : Nat} (hq : lastIdx '<' l = some q) :
    lineSuffix l = '<' :: l.drop (q + 1) ∧ lastIdx '<' (lineSuffix l) = some 0 := by
  have hql := lastIdx_lt_length hq
  rcases lastIdx_eq_some_iff.mp hq with ⟨hget, hall⟩
  have h1 : lineSuffix l = l.drop q := by
    rw [lineSuffix, pySliceFrom, pyRFind_eq_coe hq, pyBound]
    rw [if_pos (by omega : (0 : Int) ≤ (q : Int))]
    congr 1
    omega
  have hgetl : l[q] = '<' := by
    rcases List.getElem?_eq_some.mp hget with ⟨hq2, h⟩
    exact h
  have hdrop : l.drop q = '<' :: l.drop (q + 1) := by
    rw [List.drop_eq_getElem_cons hql, hgetl]
  have hnm : '<' ∉ l.drop (q + 1) := by
    intro hmem
    rcases List.mem_iff_getElem?.mp hmem with ⟨j, hj⟩
    rw [List.getElem?_drop] at hj
    exact hall (q + 1 + j) (by omega) hj
  have h2 : lineSuffix l = '<' :: l.drop (q + 1) := h1.trans hdrop
  refine ⟨h2, ?_⟩
  rw [h2, lastIdx, lastIdx_eq_none_iff.mpr hnm]
  rfl

theorem lineSuffix_of_none {l : Line} (hl : l ≠ []) (hq : lastIdx '<' l = none) :
    lineSuffix l = l.drop (l.length - 1) ∧ (lineSuffix l).length = 1 := by
  have h1 : lineSuffix l = l.drop (l.length - 1) := by
    rw [lineSuffix, pySliceFrom, pyRFind_eq_neg_one hq, pyBound]
    rw [if_neg (by omega : ¬ (0 : Int) ≤ -1)]
    rfl
  have hlen : 0 < l.length := List.length_pos.mpr hl
  refine ⟨h1, ?_⟩
  rw [h1, List.length_drop]
  omega

theorem lastIdx_replaceLine {l v : Line} (hlt : '<' ∉ v) :
    lastIdx '<' (replaceLine l v) =
      (lastIdx '<' l).map (fun _ => (linePrefix l).length + v.length) := by
  cases hq : lastIdx '<' l with
  | some q =>
    rcases lineSuffix_of_some hq with ⟨-, hS0⟩
    rw [replaceLine_eq, lastIdx_append, hS0]
    simp [List.length_append]
  | none =>
    have hnl : '<' ∉ l := lastIdx_eq_none_iff.mp hq
    simp only [Option.map_none']
    apply lastIdx_eq_none_iff.mpr
    rw [replaceLine_eq]
    intro hmem
    rcases List.mem_append.mp hmem with h | h
    · rcases List.mem_append.mp h with h' | h'
      · exact hnl (linePrefix_subset l h')
      · exact hlt h'
    · exact hnl (lineSuffix_subset l h)

theorem replaceLine_length (l v : Line) :
    (replaceLine l v).length =
      (linePrefix l).length + v.length + (lineSuffix l).length := by
  rw [replaceLine_eq]
  simp [List.length_append]
  omega

theorem lineSuffix_length_pos {l : Line} (hl : l ≠ []) :
    0 < (lineSuffix l).length := by
  cases hq : lastIdx '<' l with
  | some q =>
    rcases lineSuffix_of_some hq with ⟨h2, -⟩
    rw [h2]
    simp
  | none =>
    rcases lineSuffix_of_none hl hq with ⟨-, h2⟩
    omega

/-- The slice bounds Python recomputes on a rewritten line: the first `'>'`
still closes the kept prefix and the last `'<'` still opens the kept
suffix, provided the inserted value contains neither delimiter and the
line was nonempty. -/
theorem replaceLine_bounds {l v : Line} (hl : l ≠ []) (hgt : '>' ∉ v)
    (hlt : '<' ∉ v) :
    (pyFind (replaceLine l v) '>' + 1).toNat = (linePrefix l).length
  ∧ pyBound (replaceLine l v).length (pyFind (replaceLine l v) '>' + 1) =
      (linePrefix l).length
  ∧ pyBound (replaceLine l v).length (pyRFind (replaceLine l v) '<') =
      (linePrefix l).length + v.length := by
  have hXlen := replaceLine_length l v
  have hSpos := lineSuffix_length_pos hl
  have hfX := firstIdx_replaceLine (l := l) hgt
  have hlX := lastIdx_replaceLine (l := l) hlt
  have hb12 : (pyFind (replaceLine l v) '>' + 1).toNat = (linePrefix l).length
      ∧ pyBound (replaceLine l v).length (pyFind (replaceLine l v) '>' + 1) =
        (linePrefix l).length := by
    cases hf : firstIdx '>' l with
    | some p =>
      rcases linePrefix_of_some hf with ⟨-, hPlen⟩
      have hfind : pyFind (replaceLine l v) '>' = (p : Int) :=
        pyFind_eq_coe (hfX.trans hf)
      constructor
      · rw [hfind, hPlen]
        omega
      · rw [hfind, pyBound, if_pos (by omega : (0 : Int) ≤ (p : Int) + 1), hPlen]
        have : ((p : Int) + 1).toNat = p + 1 := by omega
        rw [this]
        omega
    | none =>
      have hP := linePrefix_of_none hf
      have hfind : pyFind (replaceLine l v) '>' = -1 :=
        pyFind_eq_neg_one (hfX.trans hf)
      constructor
      · rw [hfind, hP]
        rfl
      · rw [hfind, pyBound, if_pos (by omega : (0 : Int) ≤ (-1 : Int) + 1), hP]
        simp
  refine ⟨hb12.1, hb12.2, ?_⟩
  cases hq : lastIdx '<' l with
  | some q =>
    rw [hq] at hlX
    have hrfind : pyRFind (replaceLine l v) '<' =
        ((linePrefix l).length + v.length : Nat) :=
      pyRFind_eq_coe (by simpa using hlX)
    rw [hrfind, pyBound, if_pos (by omega : (0 : Int) ≤ (((linePrefix l).length + v.length : Nat) : Int))]
    have : ((((linePrefix l).length + v.length : Nat) : Int)).toNat =
        (linePrefix l).length + v.length := by omega
    rw [this]
    omega
  | none =>
    rw [hq] at hlX
    have hrfind : pyRFind (replaceLine l v) '<' = -1 :=
      pyRFind_eq_neg_one (by simpa using hlX)
    rcases lineSuffix_of_none hl hq with ⟨-, hS1⟩
    rw [hrfind, pyBound, if_neg (by omega : ¬ (0 : Int) ≤ -1)]
    omega

/-- Rewriting an already-rewritten line with the same delimiter-free value
changes nothing. -/
theorem replaceLine_idem_line {l v : Line} (hl : l ≠ []) (hgt : '>' ∉ v)
    (hlt : '<' ∉ v) :
    replaceLine (replaceLine l v) v = replaceLine l v := by
  obtain ⟨b1, -, b3⟩ := replaceLine_bounds hl hgt hlt
  have hX : replaceLine l v = (linePrefix l ++ v) ++ lineSuffix l := by
    rw [replaceLine_eq]
  show (replaceLine l v).take (pyFind (replaceLine l v) '>' + 1).toNat ++ v ++
      pySliceFrom (replaceLine l v) (pyRFind (replaceLine l v) '<') = replaceLine l v
  rw [b1, pySliceFrom, b3]
  have htake : (replaceLine l v).take (linePrefix l).length = linePrefix l := by
    rw [replaceLine_eq, List.append_assoc]
    exact List.take_left' rfl
  have hdrop : (replaceLine l v).drop ((linePrefix l).length + v.length) =
      lineSuffix l := by
    rw [hX]
    exact List.drop_left' (by simp [List.length_append])
  rw [htake, hdrop, replaceLine_eq]

/-- Reading back a rewritten line recovers exactly the inserted value,
provided the value contains neither delimiter and the line was nonempty. -/
theorem readLine_replaceLine {l v : Line} (hl : l ≠ []) (hgt : '>' ∉ v)
    (hlt : '<' ∉ v) :
    readLine (replaceLine l v) = v := by
  obtain ⟨-, b2, b3⟩ := replaceLine_bounds hl hgt hlt
  show pySlice (replaceLine l v) (pyFind (replaceLine l v) '>' + 1)
      (pyRFind (replaceLine l v) '<') = v
  rw [pySlice, b2, b3]
  have htake : (replaceLine l v).take ((linePrefix l).length + v.length) =
      linePrefix l ++ v := by
    have hX : replaceLine l v = (linePrefix l ++ v) ++ lineSuffix l := by
      rw [replaceLine_eq]
    rw [hX]
    exact List.take_left' (by simp [List.length_append])
  rw [htake]
  exact List.drop_left' rfl

/-! ## Helper lemmas: document-level behaviour -/

theorem replace_false_eq_map (m v : Line) (data : Doc) :
    replace m v false data =
      data.map (fun l => if m <:+: l then replaceLine l v else l) := by
  induction data with
  | nil => rfl
  | cons l ls ih =>
    by_cases h : m <:+: l
    · simp [replace, h, ih]
    · simp [replace, h, ih]

theorem replace_length (m v : Line) (one : Bool) (data : Doc) :
    (replace m v one data).length = data.length := by
  induction data with
  | nil => rfl
  | cons l ls ih =>
    by_cases h : m <:+: l
    · cases one <;> simp [replace, h, ih]
    · simp [replace, h, ih]

theorem replace_no_match {m : Line} (v : Line) (one : Bool) {data : Doc}
    (h : ∀ l ∈ data, ¬ m <:+: l) : replace m v one data = data := by
  induction data with
  | nil => rfl
  | cons l ls ih =>
    have hl : ¬ m <:+: l := h l (List.mem_cons_self l ls)
    simp [replace, hl, ih fun x hx => h x (List.mem_cons_of_mem l hx)]

theorem replace_true_of_firstMatch {m : Line} (v : Line) {data : Doc} {i : Nat}
    {l : Line} (hfm : isFirstMatch m data i) (hl : data[i]? = some l) :
    replace m v true data = data.take i ++ replaceLine l v :: data.drop (i + 1) := by
  induction data generalizing i with
  | nil => cases hl
  | cons l0 ls ih =>
    rcases hfm with ⟨⟨l', hl', hm'⟩, hall⟩
    cases i with
    | zero =>
      simp only [List.getElem?_cons_zero] at hl hl'
      obtain rfl : l0 = l := Option.some.inj hl
      obtain rfl : l0 = l' := Option.some.inj hl'
      simp [replace, hm']
    | succ k =>
      have h0 : ¬ m <:+: l0 := by
        have := hall 0 (Nat.succ_pos k) l0 (by simp)
        exact this
      simp only [List.getElem?_cons_succ] at hl hl'
      have hfm' : isFirstMatch m ls k := by
        refine ⟨⟨l', hl', hm'⟩, ?_⟩
        intro j hj x hx
        exact hall (j + 1) (by omega) x (by simpa using hx)
      simp [replace, h0, ih hfm' hl]

theorem read_first_of_firstMatch {m : Line} {data : Doc} {i : Nat} {l : Line}
    (hfm : isFirstMatch m data i) (hl : data[i]? = some l) :
    read_first m data = some (readLine l) := by
  induction data generalizing i with
  | nil => cases hl
  | cons l0 ls ih =>
    rcases hfm with ⟨⟨l', hl', hm'⟩, hall⟩
    cases i with
    | zero =>
      simp only [List.getElem?_cons_zero] at hl hl'
      obtain rfl : l0 = l := Option.some.inj hl
      obtain rfl : l0 = l' := Option.some.inj hl'
      simp [read_first, hm']
    | succ k =>
      have h0 : ¬ m <:+: l0 := hall 0 (Nat.succ_pos k) l0 (by simp)
      simp only [List.getElem?_cons_succ] at hl hl'
      have hfm' : isFirstMatch m ls k := by
        refine ⟨⟨l', hl', hm'⟩, ?_⟩
        intro j hj x hx
        exact hall (j + 1) (by omega) x (by simpa using hx)
      simp [read_first, h0, ih hfm' hl]

theorem read_first_eq_none_iff {m : Line} {data : Doc} :
    read_first m data = none ↔ ∀ l ∈ data, ¬ m <:+: l := by
  induction data with
  | nil => simp [read_first]
  | cons l0 ls ih =>
    by_cases h : m <:+: l0
    · simp [read_first, h]
    · simp [read_first, h, ih]

theorem readLoop_eq_nil_iff {m : Line} {data : Doc} :
    readLoop m data = [] ↔ ∀ l ∈ data, ¬ m <:+: l := by
  induction data with
  | nil => simp [readLoop]
  | cons l0 ls ih =>
    by_cases h : m <:+: l0
    · simp [readLoop, h]
    · simp [readLoop, h, ih]

theorem read_last_of_lastMatch {m : Line} {data : Doc} {i : Nat} {l : Line}
    (hlm : isLastMatch m data i) (hl : data[i]? = some l) :
    read_last m data = some (readLine l) := by
  induction data generalizing i with
  | nil => cases hl
  | cons l0 ls ih =>
    rcases hlm with ⟨⟨l', hl', hm'⟩, hall⟩
    cases i with
    | zero =>
      simp only [List.getElem?_cons_zero] at hl hl'
      obtain rfl : l0 = l := Option.some.inj hl
      obtain rfl : l0 = l' := Option.some.inj hl'
      have hnone : ∀ x ∈ ls, ¬ m <:+: x := by
        intro x hx
        rcases List.mem_iff_getElem?.mp hx with ⟨j, hj⟩
        exact hall (j + 1) (by omega) x (by simpa using hj)
      rw [read_last, readLoop, if_pos hm', readLoop_eq_nil_iff.mpr hnone]
      rfl
    | succ k =>
      simp only [List.getElem?_cons_succ] at hl hl'
      have hlm' : isLastMatch m ls k := by
        refine ⟨⟨l', hl', hm'⟩, ?_⟩
        intro j hj x hx
        exact hall (j + 1) (by omega) x (by simpa using hx)
      have hne : readLoop m ls ≠ [] := by
        intro hnil
        exact (readLoop_eq_nil_iff.mp hnil) l' (List.get?_mem (by
          simpa [List.get?_eq_getElem?] using hl')) hm'
      have htail := ih hlm' hl
      rw [read_last] at htail ⊢
      by_cases h0 : m <:+: l0
      · rw [readLoop, if_pos h0]
        cases hloop : readLoop m ls with
        | nil => exact absurd hloop hne
        | cons y ys =>
          rw [hloop] at htail
          rw [List.getLast?_cons_cons]
          exact htail
      · rw [readLoop, if_neg h0]
        exact htail

/-! ## Helper lemmas: the insert index list -/

theorem matchIdxsFrom_shift (m : Line) (i0 : Nat) (data : Doc) :
    matchIdxsFrom m i0 data = (matchIdxs m data).map (· + i0) := by
  induction data generalizing i0 with
  | nil => simp [matchIdxsFrom, matchIdxs]
  | cons l ls ih =>
    by_cases h : m <:+: l
    · rw [matchIdxs, matchIdxsFrom, if_pos h, matchIdxsFrom, if_pos h,
        ih (i0 + 1), ih 1]
      simp [List.map_map, Function.comp]
      intro a ha
      omega
    · rw [matchIdxs, matchIdxsFrom, if_neg h, matchIdxsFrom, if_neg h,
        ih (i0 + 1), ih 1]
      simp [List.map_map, Function.comp]
      intro a ha
      omega

theorem matchIdxs_eq_nil_iff {m : Line} {data : Doc} :
    matchIdxs m data = [] ↔ ∀ l ∈ data, ¬ m <:+: l := by
  induction data with
  | nil => simp [matchIdxs, matchIdxsFrom]
  | cons l ls ih =>
    by_cases h : m <:+: l
    · simp [matchIdxs, matchIdxsFrom, h]
    · rw [matchIdxs, matchIdxsFrom, if_neg h, matchIdxsFrom_shift]
      simp [h, List.map_eq_nil_iff, ih]

theorem getLast?_cons_of_ne_nil {A : Type} {l : List A} (a : A) (h : l ≠ []) :
    (a :: l).getLast? = l.getLast? := by
  cases l with
  | nil => exact absurd rfl h
  | cons y ys => exact List.getLast?_cons_cons

theorem matchIdxs_head?_of_firstMatch {m : Line} {data : Doc} {i : Nat}
    (hfm : isFirstMatch m data i) : (matchIdxs m data).head? = some i := by
  induction data generalizing i with
  | nil =>
    rcases hfm with ⟨⟨l, hl, -⟩, -⟩
    cases hl
  | cons l0 ls ih =>
    rcases hfm with ⟨⟨l', hl', hm'⟩, hall⟩
    by_cases h : m <:+: l0
    · have hi : i = 0 := by
        by_contra hne
        cases i with
        | zero => exact hne rfl
        | succ k => exact hall 0 (Nat.succ_pos k) l0 (by simp) h
      subst hi
      simp [matchIdxs, matchIdxsFrom, h]
    · cases i with
      | zero =>
        simp only [List.getElem?_cons_zero] at hl'
        obtain rfl : l0 = l' := Option.some.inj hl'
        exact absurd hm' h
      | succ k =>
        have hfm' : isFirstMatch m ls k := by
          simp only [List.getElem?_cons_succ] at hl'
          refine ⟨⟨l', hl', hm'⟩, ?_⟩
          intro j hj x hx
          exact hall (j + 1) (by omega) x (by simpa using hx)
        rw [matchIdxs, matchIdxsFrom, if_neg h, matchIdxsFrom_shift]
        rw [List.head?_map, ih hfm']
        rfl

theorem matchIdxs_getLast?_of_lastMatch {m : Line} {data : Doc} {i : Nat}
    (hlm : isLastMatch m data i) : (matchIdxs m data).getLast? = some i := by
  induction data generalizing i with
  | nil =>
    rcases hlm with ⟨⟨l, hl, -⟩, -⟩
    cases hl
  | cons l0 ls ih =>
    rcases hlm with ⟨⟨l', hl', hm'⟩, hall⟩
    cases i with
    | zero =>
      simp only [List.getElem?_cons_zero] at hl'
      obtain rfl : l0 = l' := Option.some.inj hl'
      have hnone : ∀ x ∈ ls, ¬ m <:+: x := by
        intro x hx
        rcases List.mem_iff_getElem?.mp hx with ⟨j, hj⟩
        exact hall (j + 1) (by omega) x (by simpa using hj)
      rw [matchIdxs, matchIdxsFrom, if_pos hm', matchIdxsFrom_shift]
      rw [matchIdxs_eq_nil_iff.mpr hnone]
      rfl
    | succ k =>
      simp only [List.getElem?_cons_succ] at hl'
      have hlm' : isLastMatch m ls k := by
        refine ⟨⟨l', hl', hm'⟩, ?_⟩
        intro j hj x hx
        exact hall (j + 1) (by omega) x (by simpa using hx)
      have htail := ih hlm'
      have hne : matchIdxs m ls ≠ [] := by
        intro hnil
        rw [hnil] at htail
        cases htail
      by_cases h : m <:+: l0
      · have hmapne : (matchIdxs m ls).map (· + (0 + 1)) ≠ [] := by
          simp [List.map_eq_nil_iff, hne]
        rw [matchIdxs, matchIdxsFrom, if_pos h, matchIdxsFrom_shift,
          getLast?_cons_of_ne_nil _ hmapne, List.getLast?_map, htail]
        rfl
      · rw [matchIdxs, matchIdxsFrom, if_neg h, matchIdxsFrom_shift]
        rw [List.getLast?_map, htail]
        rfl

theorem insert_def (data : Doc) (m : Line) (content : List Line) (loc : Loc) :
    insert data m content loc =
      if h : matchIdxs m data = [] then data
      else
        let i := match loc with
          | Loc.first => (matchIdxs m data).head h
          | Loc.last => (matchIdxs m data).getLast h
        data.take (i + 1) ++ content ++ data.drop (i + 1) := rfl

theorem insert_no_match {m : Line} (content : List Line) (loc : Loc) {data : Doc}
    (h : ∀ l ∈ data, ¬ m <:+: l) : insert data m content loc = data := by
  rw [insert_def]
  simp [matchIdxs_eq_nil_iff.mpr h]

theorem insert_first_of_firstMatch {m : Line} (content : List Line) {data : Doc}
    {i : Nat} (hfm : isFirstMatch m data i) :
    insert data m content Loc.first =
      data.take (i + 1) ++ content ++ data.drop (i + 1) := by
  have hh := matchIdxs_head?_of_firstMatch hfm
  have hne : matchIdxs m data ≠ [] := by
    intro hnil
    rw [hnil] at hh
    cases hh
  rw [insert_def]
  simp only [dif_neg hne]
  have : (matchIdxs m data).head hne = i :=
    (List.head_eq_iff_head?_eq_some hne).mpr hh
  rw [this]

theorem insert_last_of_lastMatch {m : Line} (content : List Line) {data : Doc}
    {i : Nat} (hlm : isLastMatch m data i) :
    insert data m content Loc.last =
      data.take (i + 1) ++ content ++ data.drop (i + 1) := by
  have hh := matchIdxs_getLast?_of_lastMatch hlm
  have hne : matchIdxs m data ≠ [] := by
    intro hnil
    rw [hnil] at hh
    cases hh
  rw [insert_def]
  simp only [dif_neg hne]
  have : (matchIdxs m data).getLast hne = i :=
    (List.getLast_eq_iff_getLast?_eq_some hne).mpr hh
  rw [this]

/-! ## Helper lemmas: spec-side slice equations and splices -/

/-- On a line whose first `'>'` sits at `p` and last `'<'` at `q`, the
rewritten line is exactly the prefix through `p`, the new value, and the
suffix from `q`. -/
theorem replaceLine_spec_eq {l : Line} {p q : Nat} (v : Line)
    (hp : firstGtAt l p) (hq : lastLtAt l q) :
    replaceLine l v = l.take (p + 1) ++ v ++ l.drop q := by
  have hf : firstIdx '>' l = some p := firstIdx_eq_some_iff.mpr hp
  have hlst : lastIdx '<' l = some q := lastIdx_eq_some_iff.mpr hq
  have hqlen := lastIdx_lt_length hlst
  rw [replaceLine, pyFind_eq_coe hf, pyRFind_eq_coe hlst, pySliceFrom, pyBound]
  rw [if_pos (by omega : (0 : Int) ≤ (q : Int))]
  have h1 : ((p : Int) + 1).toNat = p + 1 := by omega
  have h2 : min ((q : Int)).toNat l.length = q := by omega
  rw [h1, h2]

/-- On such a line, the value read back is the slice strictly between the
two delimiters. -/
theorem readLine_spec_eq {l : Line} {p q : Nat}
    (hp : firstGtAt l p) (hq : lastLtAt l q) :
    readLine l = (l.take q).drop (p + 1) := by
  have hf : firstIdx '>' l = some p := firstIdx_eq_some_iff.mpr hp
  have hlst : lastIdx '<' l = some q := lastIdx_eq_some_iff.mpr hq
  have hplen := firstIdx_lt_length hf
  have hqlen := lastIdx_lt_length hlst
  rw [readLine, pySlice, pyFind_eq_coe hf, pyRFind_eq_coe hlst, pyBound, pyBound]
  rw [if_pos (by omega : (0 : Int) ≤ (q : Int)),
    if_pos (by omega : (0 : Int) ≤ (p : Int) + 1)]
  have h1 : ((p : Int) + 1).toNat = p + 1 := by omega
  have h2 : min ((q : Int)).toNat l.length = q := by omega
  have h3 : min (p + 1) l.length = p + 1 := by omega
  rw [h1, h2, h3]

theorem getElem?_splice_self {A : Type} {data : List A} {i : Nat} (x : A)
    (hi : i < data.length) :
    (data.take i ++ x :: data.drop (i + 1))[i]? = some x := by
  have hlen : (data.take i).length = i := by
    rw [List.length_take]
    omega
  rw [List.getElem?_append_right (by omega), hlen]
  simp

theorem getElem?_splice_other {A : Type} {data : List A} {i : Nat} (x : A)
    (hi : i < data.length) :
    ∀ j, j ≠ i → (data.take i ++ x :: data.drop (i + 1))[j]? = data[j]? := by
  intro j hj
  have hlen : (data.take i).length = i := by
    rw [List.length_take]
    omega
  rcases Nat.lt_or_ge j i with h | h
  · rw [List.getElem?_append, if_pos (show j < (data.take i).length by omega),
      List.getElem?_take, if_pos h]
  · have hj' : i < j := by omega
    rw [List.getElem?_append_right (by omega), hlen]
    have : j - i = (j - i - 1) + 1 := by omega
    rw [this, List.getElem?_cons_succ, List.getElem?_drop]
    congr 1
    omega

theorem splice_length {A : Type} {data : List A} {i : Nat}
    (content : List A) (hi : i < data.length) :
    (data.take (i + 1) ++ content ++ data.drop (i + 1)).length =
      data.length + content.length := by
  simp [List.length_append, List.length_take, List.length_drop]
  omega

theorem readLoop_eq_filter_map (m : Line) (data : Doc) :
    readLoop m data =
      (data.filter (fun l => decide (m <:+: l))).map readLine := by
  induction data with
  | nil => rfl
  | cons l ls ih =>
    by_cases h : m <:+: l
    · simp [readLoop, List.filter_cons, h, ih]
    · simp [readLoop, List.filter_cons, h, ih]

theorem fillOffsets_getElem? (segs : List (Nat × Nat)) :
    ∀ b k, k < segs.length →
      (fillOffsets b segs)[k]? =
        some (b + (((segs.take k).map (fun s => s.1 * s.2)).sum)) := by
  induction segs with
  | nil =>
    intro b k hk
    simp at hk
  | cons s rest ih =>
    intro b k hk
    rcases s with ⟨len, cnt⟩
    cases k with
    | zero => simp [fillOffsets]
    | succ k' =>
      rw [fillOffsets, List.getElem?_cons_succ, ih _ k' (by simpa using hk)]
      simp [List.take_succ_cons, List.map_cons, List.sum_cons]
      omega

/-! ## The claims -/

/-- C10: for every document, marker, replacement value and either setting of
`replace_one`, `replace` never changes the number of lines of the document:
it rewrites matching lines in place and never adds, removes, splits or
merges entries of `self.data`. -/
theorem replace_preserves_length (data : Doc) (m v : Line) (one : Bool) :
    (replace m v one data).length = data.length :=
  replace_length m v one data

/-- C2: processing segment kinds in order with record lengths and counts,
the byte offset recorded for the k-th processed kind is exactly the sum of
length times count over the earlier kinds, the first kind receiving offset
0; in particular kinds with (length 20, count 5) then (length 8, count 100)
receive offsets 0 and 100. -/
theorem fill_offsets_cumulative :
    (∀ (segs : List (Nat × Nat)) (k : Nat), k < segs.length →
        (fillOffsets 0 segs)[k]? =
          some (((segs.take k).map (fun s => s.1 * s.2)).sum))
  ∧ fillOffsets 0 [(20, 5), (8, 100)] = [0, 100] := by
  constructor
  · intro segs k hk
    simpa using fillOffsets_getElem? segs 0 k hk
  · rfl

/-- C2 witness: the cumulative-offset law evaluated on the concrete
two-kind scenario. -/
theorem fill_offsets_cumulative_witness :
    1 < ([((20 : Nat), (5 : Nat)), (8, 100)] : List (Nat × Nat)).length
  ∧ (fillOffsets 0 [(20, 5), (8, 100)])[1]? = some 100 :=
  ⟨by decide, by
    simpa using fill_offsets_cumulative.1 [(20, 5), (8, 100)] 1 (by decide)⟩

/-- C6: `read(marker, 'first')` produces no value exactly when no line of
the document contains the marker; the `none` result (Python `None`) is what
the caller receives. -/
theorem read_first_none_iff_no_match (data : Doc) (m : Line) :
    read_first m data = none ↔ ∀ l ∈ data, ¬ m <:+: l :=
  read_first_eq_none_iff

/-- C6 witness: on a document with no matching line the read yields no
value. -/
theorem read_first_none_iff_no_match_witness :
    read_first ("M".toList) [ "<a>x</a>".toList ] = none :=
  (read_first_none_iff_no_match [ "<a>x</a>".toList ] ("M".toList)).mpr
    (by decide)

/-- C7: `read(marker, 'last')` collects the values of all matching lines in
document order and returns the last one, failing (no value, the modelled
`IndexError` on `val[-1]`) exactly when the collection is empty, while
`read(marker, 'all')` returns the ordered sequence of all matching values
and the empty sequence is a valid result reached exactly when nothing
matches. -/
theorem read_last_and_all_spec (data : Doc) (m : Line) :
    (∀ i l, isLastMatch m data i → data[i]? = some l →
        read_last m data = some (readLine l))
  ∧ (read_last m data = none ↔ ∀ l ∈ data, ¬ m <:+: l)
  ∧ (read_all m data = [] ↔ ∀ l ∈ data, ¬ m <:+: l)
  ∧ read_all m data = (data.filter (fun l => decide (m <:+: l))).map readLine := by
  refine ⟨?_, ?_, ?_, ?_⟩
  · intro i l hlm hl
    exact read_last_of_lastMatch hlm hl
  · rw [read_last, List.getLast?_eq_none_iff]
    exact readLoop_eq_nil_iff
  · exact readLoop_eq_nil_iff
  · exact readLoop_eq_filter_map m data

/-- C7 witness: on a two-match document the last match's value is
returned. -/
theorem read_last_and_all_spec_witness :
    read_last ("<a>".toList) [ "<a>1</a>".toList, "<a>2</a>".toList ] =
      some (readLine ("<a>2</a>".toList)) := by
  apply (read_last_and_all_spec [ "<a>1</a>".toList, "<a>2</a>".toList ]
    ("<a>".toList)).1 1
  · refine ⟨⟨"<a>2</a>".toList, by decide, by decide⟩, ?_⟩
    intro j hj x hx
    rw [List.getElem?_eq_none (by simpa using hj)] at hx
    cases hx
  · rfl

/-- C1: `replace(marker, newValue, replaceOnlyFirst)` rewrites every line
containing the marker (only the first such line, in document order, when
`replaceOnlyFirst` is set) so that, on a line whose first `'>'` sits at `p`
and whose last `'<'` sits at `q` with `p < q`, the substring strictly
between them becomes the new value and every other character of the line is
preserved byte-for-byte; lines not containing the marker are untouched, and
a document with no matching line is left entirely unchanged. -/
theorem replace_rewrites_between_delims (data : Doc) (m v : Line) :
    ((∀ l ∈ data, ¬ m <:+: l) → ∀ one, replace m v one data = data)
  ∧ (∀ (i : Nat) (l : Line), data[i]? = some l → ¬ m <:+: l →
        (replace m v false data)[i]? = some l)
  ∧ (∀ (i : Nat) (l : Line) (p q : Nat), data[i]? = some l → m <:+: l →
        firstGtAt l p → lastLtAt l q → p < q →
        (replace m v false data)[i]? = some (l.take (p + 1) ++ v ++ l.drop q))
  ∧ (∀ (i : Nat) (l : Line), isFirstMatch m data i → data[i]? = some l →
        (∀ (p q : Nat), firstGtAt l p → lastLtAt l q → p < q →
          (replace m v true data)[i]? = some (l.take (p + 1) ++ v ++ l.drop q))
      ∧ ∀ (j : Nat), j ≠ i → (replace m v true data)[j]? = data[j]?) := by
  refine ⟨fun h one => replace_no_match v one h, ?_, ?_, ?_⟩
  · intro i l hl hnm
    rw [replace_false_eq_map, List.getElem?_map, hl]
    simp [hnm]
  · intro i l p q hl hm hp hq hpq
    rw [replace_false_eq_map, List.getElem?_map, hl]
    simp only [Option.map_some']
    rw [if_pos hm, replaceLine_spec_eq v hp hq]
  · intro i l hfm hl
    have hi : i < data.length := by
      rcases List.getElem?_eq_some.mp hl with ⟨h', -⟩
      exact h'
    have hrw := replace_true_of_firstMatch v hfm hl
    constructor
    · intro p q hp hq hpq
      rw [hrw, getElem?_splice_self _ hi, replaceLine_spec_eq v hp hq]
    · intro j hj
      rw [hrw]
      exact getElem?_splice_other _ hi j hj

/-- C1 witness: replacing in a one-line document rewrites the value slot of
the matching line. -/
theorem replace_rewrites_between_delims_witness :
    (replace ("<a>".toList) ("v".toList) true [ "<a>x</a>".toList ])[0]? =
      some (List.take 3 ("<a>x</a>".toList) ++ "v".toList ++
        List.drop 4 ("<a>x</a>".toList)) := by
  have hfm : isFirstMatch ("<a>".toList) [ "<a>x</a>".toList ] 0 :=
    ⟨⟨"<a>x</a>".toList, rfl, by decide⟩, by
      intro j hj l hl
      omega⟩
  exact ((replace_rewrites_between_delims [ "<a>x</a>".toList ] ("<a>".toList)
      ("v".toList)).2.2.2 0 ("<a>x</a>".toList) hfm rfl).1 2 4
    (firstIdx_eq_some_iff.mp (by decide))
    (lastIdx_eq_some_iff.mp (by decide))
    (by omega)

/-- C3: `insert(marker, content, position)` with a list of lines as content
splices the lines, in order, immediately after the anchor line (the first
line containing the marker for `first`, the last for `last`), shifting all
later lines down and growing the document by exactly the number of inserted
lines; with no matching line the document is unchanged. -/
theorem insert_after_anchor (data : Doc) (m : Line) (content : List Line) :
    ((∀ l ∈ data, ¬ m <:+: l) → ∀ loc, insert data m content loc = data)
  ∧ (∀ (i : Nat), isFirstMatch m data i →
        insert data m content Loc.first =
          data.take (i + 1) ++ content ++ data.drop (i + 1)
      ∧ (insert data m content Loc.first).length =
          data.length + content.length)
  ∧ (∀ (i : Nat), isLastMatch m data i →
        insert data m content Loc.last =
          data.take (i + 1) ++ content ++ data.drop (i + 1)
      ∧ (insert data m content Loc.last).length =
          data.length + content.length) := by
  refine ⟨fun h loc => insert_no_match content loc h, ?_, ?_⟩
  · intro i hfm
    have heq := insert_first_of_firstMatch content hfm
    rcases hfm with ⟨⟨l, hl, -⟩, -⟩
    have hi : i < data.length := by
      rcases List.getElem?_eq_some.mp hl with ⟨h', -⟩
      exact h'
    exact ⟨heq, by rw [heq]; exact splice_length content hi⟩
  · intro i hlm
    have heq := insert_last_of_lastMatch content hlm
    rcases hlm with ⟨⟨l, hl, -⟩, -⟩
    have hi : i < data.length := by
      rcases List.getElem?_eq_some.mp hl with ⟨h', -⟩
      exact h'
    exact ⟨heq, by rw [heq]; exact splice_length content hi⟩

/-- C3 witness: inserting one line after the first (and only) matching line
of a two-line document. -/
theorem insert_after_anchor_witness :
    insert [ "<r>".toList, "</r>".toList ] ("<r>".toList) [ "Y".toList ]
        Loc.first =
      [ "<r>".toList, "Y".toList, "</r>".toList ] := by
  have hfm : isFirstMatch ("<r>".toList) [ "<r>".toList, "</r>".toList ] 0 :=
    ⟨⟨"<r>".toList, rfl, by decide⟩, by
      intro j hj l hl
      omega⟩
  have h := ((insert_after_anchor [ "<r>".toList, "</r>".toList ]
    ("<r>".toList) [ "Y".toList ]).2.1 0 hfm).1
  simpa using h

/-- C4: when the marker occurs in exactly one line of the document,
`read(marker, 'first')` returns the substring strictly between the first
`'>'` and the last `'<'` of that line. -/
theorem read_first_between_delims (data : Doc) (m : Line) (i : Nat) (l : Line)
    (p q : Nat) (hl : data[i]? = some l) (hm : m <:+: l)
    (huniq : ∀ j, j ≠ i → ∀ l', data[j]? = some l' → ¬ m <:+: l')
    (hp : firstGtAt l p) (hq : lastLtAt l q) (hpq : p < q) :
    read_first m data = some ((l.take q).drop (p + 1)) := by
  have hfm : isFirstMatch m data i :=
    ⟨⟨l, hl, hm⟩, fun j hj l' hl' => huniq j (by omega) l' hl'⟩
  rw [read_first_of_firstMatch hfm hl, readLine_spec_eq hp hq]

/-- C4 witness: reading the single matching line of a one-line document
returns the text between its delimiters. -/
theorem read_first_between_delims_witness :
    read_first ("<a>".toList) [ "<a>x</a>".toList ] =
      some ((List.take 4 ("<a>x</a>".toList)).drop 3) := by
  refine read_first_between_delims [ "<a>x</a>".toList ] ("<a>".toList) 0
    ("<a>x</a>".toList) 2 4 rfl (by decide) ?_
    (firstIdx_eq_some_iff.mp (by decide))
    (lastIdx_eq_some_iff.mp (by decide))
    (by omega)
  intro j hj l' hl'
  rw [List.getElem?_eq_none (by simp only [List.length_singleton]; omega)] at hl'
  cases hl'

/-- C5 counterexample: the round-trip law fails as universally stated: with
the marker sitting inside the value region of its only line, the rewrite
destroys the marker and the subsequent read finds nothing. -/
theorem replace_read_roundtrip_cex :
    read_first ("M".toList)
        (replace ("M".toList) ("x".toList) false [ "a>M<b".toList ]) ≠
      some ("x".toList) := by
  decide

/-- C5 (amended): for a nonempty marker, a value containing neither `'>'`
nor `'<'`, and a document whose first marker-bearing line keeps the marker
outside the replaced region (in the kept prefix or suffix), `replace`
followed by `read(marker, 'first')` returns exactly the value, and every
line not containing the marker is left unchanged. -/
theorem replace_read_roundtrip (data : Doc) (m v : Line) (i : Nat) (l : Line)
    (hm : m ≠ []) (hgt : '>' ∉ v) (hlt : '<' ∉ v)
    (hfm : isFirstMatch m data i) (hl : data[i]? = some l)
    (hkeep : m <:+: linePrefix l ∨ m <:+: lineSuffix l) :
    read_first m (replace m v false data) = some v
  ∧ ∀ (j : Nat) (l' : Line), data[j]? = some l' → ¬ m <:+: l' →
      (replace m v false data)[j]? = some l' := by
  rcases hfm with ⟨⟨l0, hl0, hm0⟩, hall⟩
  have hml : m <:+: l := by
    rw [hl] at hl0
    rw [Option.some.inj hl0]
    exact hm0
  have hlne : l ≠ [] := by
    intro hnil
    rw [hnil] at hml
    exact hm (List.infix_nil.mp hml)
  have hX : m <:+: replaceLine l v := by
    rw [replaceLine_eq]
    rcases hkeep with hk | hk
    · exact hk.trans
        (((List.prefix_append (linePrefix l) v).trans
          (List.prefix_append (linePrefix l ++ v) (lineSuffix l))).isInfix)
    · exact hk.trans ((List.suffix_append (linePrefix l ++ v) (lineSuffix l)).isInfix)
  have hsecond : ∀ (j : Nat) (l' : Line), data[j]? = some l' → ¬ m <:+: l' →
      (replace m v false data)[j]? = some l' := by
    intro j l' hj hnm
    rw [replace_false_eq_map, List.getElem?_map, hj]
    simp [hnm]
  refine ⟨?_, hsecond⟩
  have hfm' : isFirstMatch m (replace m v false data) i := by
    refine ⟨⟨replaceLine l v, ?_, hX⟩, ?_⟩
    · rw [replace_false_eq_map, List.getElem?_map, hl]
      simp [hml]
    · intro j hj l' hl'
      rw [replace_false_eq_map, List.getElem?_map] at hl'
      rcases Option.map_eq_some'.mp hl' with ⟨l'', hl'', hf⟩
      have hnm := hall j hj l'' hl''
      rw [if_neg hnm] at hf
      rwa [← hf]
  have hgetX : (replace m v false data)[i]? = some (replaceLine l v) := by
    rw [replace_false_eq_map, List.getElem?_map, hl]
    simp [hml]
  rw [read_first_of_firstMatch hfm' hgetX,
    readLine_replaceLine hlne hgt hlt]

/-- C5 witness: the round trip on a tag-style marker that survives in the
kept prefix of its line. -/
theorem replace_read_roundtrip_witness :
    read_first ("<a>".toList)
        (replace ("<a>".toList) ("x".toList) false [ "<a>M</a>".toList ]) =
      some ("x".toList) := by
  have hfm : isFirstMatch ("<a>".toList) [ "<a>M</a>".toList ] 0 :=
    ⟨⟨"<a>M</a>".toList, rfl, by decide⟩, by
      intro j hj l hl
      omega⟩
  exact (replace_read_roundtrip [ "<a>M</a>".toList ] ("<a>".toList)
    ("x".toList) 0 ("<a>M</a>".toList) (by decide) (by decide) (by decide)
    hfm rfl (Or.inl (by decide))).1

/-- C8 counterexample: with the host document ending `<Table_Binary>`,
`</Table_Binary>`, `</File>`, inserting at marker `</Table_Binary>` with
position last places the new line immediately AFTER the closing
`</Table_Binary>` line, not immediately before it as the claim states. -/
theorem insert_table_binary_cex :
    insert [ "<x>".toList, "<Table_Binary>".toList, "</Table_Binary>".toList,
        "</File>".toList ] ("</Table_Binary>".toList) [ "Y".toList ]
        Loc.last =
      [ "<x>".toList, "<Table_Binary>".toList, "</Table_Binary>".toList,
        "Y".toList, "</File>".toList ]
  ∧ insert [ "<x>".toList, "<Table_Binary>".toList, "</Table_Binary>".toList,
        "</File>".toList ] ("</Table_Binary>".toList) [ "Y".toList ]
        Loc.last ≠
      [ "<x>".toList, "<Table_Binary>".toList, "Y".toList,
        "</Table_Binary>".toList, "</File>".toList ] := by
  constructor <;> decide

/-- C8 (amended): for any host document ending `<Table_Binary>`,
`</Table_Binary>`, `</File>`, inserting the sub-template's lines with
marker `</Table_Binary>` and position last places them immediately after
the last `</Table_Binary>` line and hence immediately before the `</File>`
line (outside the wrapper, as a following sibling). -/
theorem insert_table_binary_after_close (pre : Doc) (sub : List Line) :
    insert (pre ++ [ "<Table_Binary>".toList, "</Table_Binary>".toList,
        "</File>".toList ]) ("</Table_Binary>".toList) sub Loc.last =
      (pre ++ [ "<Table_Binary>".toList, "</Table_Binary>".toList ]) ++ sub ++
        [ "</File>".toList ] := by
  have hlen : (pre ++ [ "<Table_Binary>".toList, "</Table_Binary>".toList,
      "</File>".toList ]).length = pre.length + 3 := by
    simp
  have hgetb : (pre ++ [ "<Table_Binary>".toList, "</Table_Binary>".toList,
      "</File>".toList ])[pre.length + 1]? = some ("</Table_Binary>".toList) := by
    rw [List.getElem?_append_right (by omega)]
    have h1 : pre.length + 1 - pre.length = 1 := by omega
    rw [h1]
    rfl
  have hgetc : (pre ++ [ "<Table_Binary>".toList, "</Table_Binary>".toList,
      "</File>".toList ])[pre.length + 2]? = some ("</File>".toList) := by
    rw [List.getElem?_append_right (by omega)]
    have h1 : pre.length + 2 - pre.length = 2 := by omega
    rw [h1]
    rfl
  have hlm : isLastMatch ("</Table_Binary>".toList)
      (pre ++ [ "<Table_Binary>".toList, "</Table_Binary>".toList,
        "</File>".toList ]) (pre.length + 1) := by
    refine ⟨⟨"</Table_Binary>".toList, hgetb, by decide⟩, ?_⟩
    intro j hj x hx
    have hjlen : j < pre.length + 3 := by
      rcases List.getElem?_eq_some.mp hx with ⟨h', -⟩
      rw [hlen] at h'
      exact h'
    have hj2 : j = pre.length + 2 := by omega
    rw [hj2, hgetc] at hx
    rw [← Option.some.inj hx]
    decide
  rw [insert_last_of_lastMatch sub hlm]
  have hassoc : pre ++ [ "<Table_Binary>".toList, "</Table_Binary>".toList,
      "</File>".toList ] =
      (pre ++ [ "<Table_Binary>".toList, "</Table_Binary>".toList ]) ++
        [ "</File>".toList ] := by
    rw [List.append_assoc]
    rfl
  have htake : (pre ++ [ "<Table_Binary>".toList, "</Table_Binary>".toList,
      "</File>".toList ]).take (pre.length + 1 + 1) =
      pre ++ [ "<Table_Binary>".toList, "</Table_Binary>".toList ] := by
    rw [hassoc]
    exact List.take_left' (by simp)
  have hdrop : (pre ++ [ "<Table_Binary>".toList, "</Table_Binary>".toList,
      "</File>".toList ]).drop (pre.length + 1 + 1) =
      [ "</File>".toList ] := by
    rw [hassoc]
    exact List.drop_left' (by simp)
  rw [htake, hdrop]

/-- C8 witness: the amended placement evaluated on a concrete host
document. -/
theorem insert_table_binary_after_close_witness :
    insert ([ "<x>".toList ] ++ [ "<Table_Binary>".toList,
        "</Table_Binary>".toList, "</File>".toList ])
        ("</Table_Binary>".toList) [ "Y".toList ] Loc.last =
      ([ "<x>".toList ] ++ [ "<Table_Binary>".toList,
        "</Table_Binary>".toList ]) ++ [ "Y".toList ] ++
        [ "</File>".toList ] :=
  insert_table_binary_after_close [ "<x>".toList ] [ "Y".toList ]

/-- C9 counterexample: idempotence fails as universally stated: with a
value containing `'>'` and a delimiter-free line, the second replace cuts
at the `'>'` introduced by the first and duplicates the value. -/
theorem replace_idem_cex :
    replace ("M".toList) ("x>".toList) false
        (replace ("M".toList) ("x>".toList) false [ "M".toList ]) ≠
      replace ("M".toList) ("x>".toList) false [ "M".toList ] := by
  decide

/-- C9 (amended): for a nonempty marker and a value containing neither
`'>'` nor `'<'`, calling `replace` twice with the same value yields the
same document as calling it once. -/
theorem replace_idem (data : Doc) (m v : Line) (hm : m ≠ [])
    (hgt : '>' ∉ v) (hlt : '<' ∉ v) :
    replace m v false (replace m v false data) = replace m v false data := by
  induction data with
  | nil => rfl
  | cons l ls ih =>
    by_cases h : m <:+: l
    · have hlne : l ≠ [] := by
        intro hnil
        rw [hnil] at h
        exact hm (List.infix_nil.mp h)
      by_cases h2 : m <:+: replaceLine l v
      · simp [replace, h, h2, replaceLine_idem_line hlne hgt hlt, ih]
      · simp [replace, h, h2, ih]
    · simp [replace, h, ih]

/-- C9 witness: double replace equals single replace on a tag-marked
line with a delimiter-free value. -/
theorem replace_idem_witness :
    replace ("<a>".toList) ("x".toList) false
        (replace ("<a>".toList) ("x".toList) false [ "<a>M</a>".toList ]) =
      replace ("<a>".toList) ("x".toList) false [ "<a>M</a>".toList ] :=
  replace_idem [ "<a>M</a>".toList ] ("<a>".toList) ("x".toList)
    (by decide) (by decide) (by decide)
